import Mathlib

set_option maxHeartbeats 1000000

/-!
Shallow embedding of the `vartyint` crate (src/src/lib.rs): a codec for
variable-length integers ("varints").

Conventions of the embedding:
* A byte is a `Nat` (the Rust code reads from `&[u8]` and pushes to `Vec<u8>`;
  every byte the code produces is `< 256`).
* The macros `write_unsigned!` / `read_unsigned!` / `read_signed!` /
  `write_signed!` generate one function per fixed width; the width enters the
  generated code only through the type's bit count, so each macro is embedded
  once with the bit width `w` as an explicit parameter.
* Unsigned `$type` values are `Nat`s (with `% 2 ^ w` where the machine type
  wraps); signed `$type` values are `Int`s in `[-2 ^ (w-1), 2 ^ (w-1))`, with
  `wrapS w` applied where the machine type wraps.  Rust's `>>` on a signed
  type is the arithmetic shift, which is `Int.shiftRight` (`>>>`); Rust's
  `&`/`|`/`^` on a signed type are `Int.land`/`Int.lor`/`Int.xor` on the
  two's-complement reading.
* The `while` loop of `write_signed!` does not terminate for every value it
  is reached with (see `writeSignedLoop_none_of_neg`), so it is embedded with
  an explicit fuel parameter: `none` means the loop has not finished within
  `fuel` iterations, and a result that is `none` for every `fuel` is a proof
  that the call never returns.
-/

/-- Error type of the codec (`VartyIntError` in src/src/lib.rs). -/
inductive VartyIntError where
  | EmptyBuffer
  | NotEnoughBytes
  | TooManyBytesForType
deriving DecidableEq

/-- The two's-complement value denoted by a `w`-bit pattern `p` (for
`p < 2 ^ w`): patterns with the top bit clear are nonnegative, patterns with
the top bit set denote `p - 2 ^ w`. -/
def toSigned (w p : Nat) : Int :=
  if p < 2 ^ (w - 1) then (p : Int) else (p : Int) - 2 ^ w

/-- Reduction of an integer into `w`-bit two's-complement range: the result is
in `[-2 ^ (w-1), 2 ^ (w-1))` and congruent to `x` modulo `2 ^ w`.  This models
the wrap-around of `w`-bit signed machine arithmetic (Rust `<<` discards the
bits shifted above the width). -/
def wrapS (w : Nat) (x : Int) : Int :=
  (x + 2 ^ (w - 1)) % 2 ^ w - 2 ^ (w - 1)

/-- The `while val != 0` loop of `write_unsigned!` (src/src/lib.rs lines
71-78): the list of bytes pushed, least-significant 7-bit group first.  Each
iteration takes `num = val & 0b0111_1111`, shifts `val >>= 7`, and sets the
continuation bit `0b1000_0000` on `num` iff `val` is still nonzero. -/
def write_unsigned_groups (val : Nat) : List Nat :=
  if h : val = 0 then []
  else
    let num := val &&& 127
    let val2 := val >>> 7
    (if val2 ≠ 0 then num ||| 128 else num) :: write_unsigned_groups val2
  termination_by val
  decreasing_by
    simp only [val2, Nat.shiftRight_eq_div_pow]
    exact Nat.div_lt_self (Nat.pos_of_ne_zero h) (by norm_num)

/-- `write_unsigned!` (src/src/lib.rs lines 61-81), the body shared by
`write_u8` .. `write_u128`: appends the encoding of `val` to `buf`.  The
generated functions differ only in the width of `val`'s type, which the body
never consults, so a single `Nat`-valued embedding covers every width. -/
def write_unsigned (val : Nat) (buf : List Nat) : List Nat :=
  if val = 0 then buf ++ [0] else buf ++ write_unsigned_groups val

/-- The byte-accumulation loop shared verbatim by `read_unsigned!` (src/src/
lib.rs lines 103-126) and `read_signed!` (lines 154-176); the signed
instance's `$type`-valued locals `byte` and `val` are tracked here by their
`w`-bit patterns, which the loop manipulates identically (the cast
`buf[0] as $type`, the masks and the wrapping shift act on the pattern the
same way for both signedness).  `byte.checked_shl(num_bits_read)` is `None`
exactly when `num_bits_read ≥ w` (Rust's `checked_shl` checks only the shift
amount); on `Some` the shifted-out bits are discarded (`% 2 ^ w`).
`is_last = byte >> 7 == 0` is computed before the masking, i.e. from the raw
byte `b`. -/
def readLoop (w : Nat) (num_bits_read : Nat) (val : Nat) :
    List Nat → Except VartyIntError (Nat × List Nat)
  | [] => .error .NotEnoughBytes
  | b :: rest =>
    let byte := b &&& 127
    if w ≤ num_bits_read then .error .TooManyBytesForType
    else
      let val2 := val ||| (byte <<< num_bits_read) % 2 ^ w
      if b >>> 7 = 0 then .ok (val2, rest)
      else readLoop w (num_bits_read + 7) val2 rest

/-- `read_unsigned!` (src/src/lib.rs lines 90-131), the body shared by
`read_u8` .. `read_usize` with `w` the width of the target type. -/
def read_unsigned (w : Nat) (buf : List Nat) :
    Except VartyIntError (Nat × List Nat) :=
  if buf.isEmpty then .error .EmptyBuffer
  else readLoop w 0 0 buf

/-- `read_signed!` (src/src/lib.rs lines 140-183), the body shared by
`read_i8` .. `read_isize`: the same entry check and accumulation loop as
`read_unsigned!` (the accumulated `$type` value is the pattern `p`, whose
signed reading is `toSigned w p`), followed by the zig-zag decode
`(val >> 1) ^ -(val & 1)` in `$type` arithmetic. -/
def read_signed (w : Nat) (buf : List Nat) :
    Except VartyIntError (Int × List Nat) :=
  if buf.isEmpty then .error .EmptyBuffer
  else
    match readLoop w 0 0 buf with
    | .error e => .error e
    | .ok (p, rest) =>
      let val := toSigned w p
      .ok (Int.xor (val >>> (1 : Nat)) (-(Int.land val 1)), rest)

/-- The `while val != 0` loop of `write_signed!` (src/src/lib.rs lines
205-212), run with `fuel` as an iteration bound: `none` when the loop has not
exited after `fuel` iterations.  Each iteration pushes
`num = (val & 0b0111_1111) as u8` (with the continuation bit if the shifted
value is still nonzero) and performs the arithmetic shift `val >>= 7`. -/
def writeSignedLoop : Nat → Int → List Nat → Option (List Nat)
  | 0, _, _ => none
  | fuel + 1, val, buf =>
    if val = 0 then some buf
    else
      let num := (Int.land val 127).toNat
      let val2 := val >>> (7 : Nat)
      writeSignedLoop fuel val2 (buf ++ [if val2 ≠ 0 then num ||| 128 else num])

/-- The zig-zag transform of `write_signed!` (src/src/lib.rs line 202):
`(val << 1) ^ (val >> (size_of::<$type>()*8 - 1))`, both computed in `$type`
itself — the left shift wraps at `w` bits (`wrapS`), and the right shift is
the arithmetic shift by `w - 1`. -/
def zigzag (w : Nat) (val : Int) : Int :=
  Int.xor (wrapS w (val <<< (1 : Int))) (val >>> (w - 1))

/-- `write_signed!` (src/src/lib.rs lines 192-214), the body shared by
`write_i8` .. `write_isize` with `w` the width of `$type`: zero is
special-cased to a single zero byte, any other value is zig-zag transformed
and run through the grouping loop (which, on a negative transform result,
never exits — hence the fuel). -/
def write_signed (w fuel : Nat) (val : Int) (buf : List Nat) :
    Option (List Nat) :=
  if val = 0 then some (buf ++ [0])
  else writeSignedLoop fuel (zigzag w val) buf

/-- Modelled from the spec: `write_many_delta` (the sequence codec of spec
section 4.4 is not among the repository's files under src/; only its tests in
src/src/tests.rs call it).  "The running reference starts at the type's zero
value; for each input value `v_i`, emits `encode(v_i - reference)` then sets
`reference = v_i`."  The subtraction is `$type` subtraction (`wrapS w`), the
element encoder is the signed single-value writer from src/src/lib.rs, and
the fuel is threaded into it. -/
def write_many_delta (w fuel : Nat) : Int → List Int → List Nat → Option (List Nat)
  | _, [], buf => some buf
  | reference, v :: rest, buf =>
    match write_signed w fuel (wrapS w (v - reference)) buf with
    | none => none
    | some buf2 => write_many_delta w fuel v rest buf2

/-- Modelled from the spec: `read_many_delta` (the sequence codec of spec
section 4.4 is not among the repository's files under src/): "starts a
running accumulator at zero, decodes each difference, adds it to the
accumulator, and yields the accumulator"; production stops when the view is
exactly empty at the start of an element, and a decode error halts production
(`none` here).  The element decoder is the signed single-value reader from
src/src/lib.rs.  `fuel` bounds the number of elements; each decoded element
consumes at least one byte, so `buf.length + 1` fuel always suffices. -/
def read_many_delta (w : Nat) : Nat → Int → List Nat → Option (List Int)
  | 0, _, _ => none
  | fuel + 1, acc, buf =>
    if buf.isEmpty then some []
    else
      match read_signed w buf with
      | .error _ => none
      | .ok (d, rest) =>
        let acc2 := wrapS w (acc + d)
        match read_many_delta w fuel acc2 rest with
        | none => none
        | some vs => some (acc2 :: vs)

/-! ### Basic facts about bytes and the accumulation loop -/

/-- The continuation test `byte >> 7 == 0` holds exactly for bytes below
`0x80`. -/
lemma shiftRight7_eq_zero_iff (b : Nat) : b >>> 7 = 0 ↔ b < 128 := by
  rw [Nat.shiftRight_eq_div_pow]
  constructor
  · intro h
    by_contra hb
    have : 1 ≤ b / 2 ^ 7 := (Nat.one_le_div_iff (by norm_num)).mpr (by omega)
    omega
  · intro h
    exact Nat.div_eq_of_lt (by omega)

/-- The loop never reports `EmptyBuffer`: that error only arises from the
entry check. -/
lemma readLoop_ne_emptyBuffer (w : Nat) (buf : List Nat) :
    ∀ bits val, readLoop w bits val buf ≠ .error .EmptyBuffer := by
  induction buf with
  | nil => intro bits val; simp [readLoop]
  | cons b rest ih =>
    intro bits val
    by_cases hw : w ≤ bits
    · simp [readLoop, if_pos hw]
    · by_cases hl : b >>> 7 = 0
      · simp [readLoop, if_neg hw, if_pos hl]
      · simpa [readLoop, if_neg hw, if_neg hl] using ih (bits + 7) _

/-- Exact description of when the loop reports `TooManyBytesForType`: some
byte is consumed while the running bit offset has already reached the width
(`checked_shl` rejects the shift amount), which requires every earlier byte
to carry the continuation bit. -/
lemma readLoop_tmb_iff (w : Nat) (buf : List Nat) : ∀ bits val,
    (readLoop w bits val buf = .error .TooManyBytesForType ↔
      ∃ i, i < buf.length ∧ w ≤ bits + 7 * i ∧ ∀ j, j < i → 128 ≤ buf.getD j 0) := by
  induction buf with
  | nil => intro bits val; simp [readLoop]
  | cons b rest ih =>
    intro bits val
    by_cases hw : w ≤ bits
    · simp only [readLoop, if_pos hw]
      constructor
      · intro _
        exact ⟨0, by simp, by omega, by omega⟩
      · intro _; trivial
    · simp only [readLoop, if_neg hw]
      by_cases hl : b >>> 7 = 0
      · rw [if_pos hl]
        have hb : b < 128 := (shiftRight7_eq_zero_iff b).mp hl
        constructor
        · intro h; exact absurd h (by simp)
        · rintro ⟨i, hi, hwi, hall⟩
          rcases i with _ | i
          · omega
          · have h0 := hall 0 (by omega)
            simp only [List.getD_cons_zero] at h0
            omega
      · rw [if_neg hl]
        have hb : 128 ≤ b := by
          rcases Nat.lt_or_ge b 128 with h | h
          · exact absurd ((shiftRight7_eq_zero_iff b).mpr h) hl
          · exact h
        rw [ih (bits + 7) _]
        constructor
        · rintro ⟨i, hi, hwi, hall⟩
          refine ⟨i + 1, by simpa using Nat.succ_lt_succ hi, by omega, ?_⟩
          intro j hj
          rcases j with _ | j
          · simpa using hb
          · simpa using hall j (by omega)
        · rintro ⟨i, hi, hwi, hall⟩
          rcases i with _ | i
          · omega
          · refine ⟨i, by simpa using hi, by omega, ?_⟩
            intro j hj
            simpa using hall (j + 1) (by omega)

/-- If every byte of a nonempty tail carries the continuation bit and no
consumed byte reaches the width's bit offset, the loop runs off the end of
the buffer and reports `NotEnoughBytes`. -/
lemma readLoop_neb (w : Nat) (buf : List Nat) : ∀ bits val, buf ≠ [] →
    (∀ b ∈ buf, 128 ≤ b) → bits + 7 * (buf.length - 1) < w →
    readLoop w bits val buf = .error .NotEnoughBytes := by
  induction buf with
  | nil => intro _ _ h; exact absurd rfl h
  | cons b rest ih =>
    intro bits val _ hall hbits
    have hb : 128 ≤ b := hall b (by simp)
    have hw : ¬ w ≤ bits := by simp at hbits; omega
    have hl : ¬ b >>> 7 = 0 := by
      rw [shiftRight7_eq_zero_iff]; omega
    rcases rest with _ | ⟨c, rest⟩
    · simp [readLoop, if_neg hw, if_neg hl]
    · rw [readLoop, if_neg hw, if_neg hl]
      refine ih (bits + 7) _ (by simp) (fun x hx => hall x (by simp [hx])) ?_
      simp at hbits ⊢
      omega

/-- The signed reader fails exactly when the unsigned reader fails, with the
same error: entry check and loop are shared. -/
lemma read_signed_error_iff (w : Nat) (buf : List Nat) (e : VartyIntError) :
    read_signed w buf = .error e ↔ read_unsigned w buf = .error e := by
  unfold read_signed read_unsigned
  by_cases hb : buf.isEmpty
  · simp [hb]
  · simp only [hb, if_neg]
    cases h : readLoop w 0 0 buf with
    | error e2 => simp
    | ok p => simp

/-- `read_unsigned` reports `TooManyBytesForType` exactly when some byte is
consumed at bit offset `≥ w`, i.e. after all of the first `⌈w/7⌉` bytes
carried the continuation bit. -/
lemma read_unsigned_tmb_iff (w : Nat) (buf : List Nat) :
    read_unsigned w buf = .error .TooManyBytesForType ↔
      ∃ i, i < buf.length ∧ w ≤ 7 * i ∧ ∀ j, j < i → 128 ≤ buf.getD j 0 := by
  unfold read_unsigned
  by_cases hb : buf.isEmpty
  · rw [List.isEmpty_iff] at hb
    subst hb
    simp
  · rw [if_neg (by simpa using hb)]
    simpa using readLoop_tmb_iff w buf 0 0

/-- `read_unsigned` reports `EmptyBuffer` exactly on the empty input. -/
lemma read_unsigned_eb_iff (w : Nat) (buf : List Nat) :
    read_unsigned w buf = .error .EmptyBuffer ↔ buf = [] := by
  unfold read_unsigned
  by_cases hb : buf.isEmpty
  · rw [List.isEmpty_iff] at hb
    subst hb
    simp
  · rw [if_neg (by simpa using hb)]
    have hne := readLoop_ne_emptyBuffer w buf 0 0
    constructor
    · intro h; exact absurd h hne
    · intro h; exact absurd h (by simpa using hb)

/-- **C4** (corrected): the readers fail with `TooManyBytesForType` exactly
when a byte is consumed while the running bit offset has already reached the
target width — Rust's `checked_shl` rejects only the shift *amount*, so set
bits shifted past the width by an in-range shift are silently discarded (see
`spec_c4_counterexample`).  The concrete example holds: `[0x80, 0xAD, 0xE2,
0x04]` read at width 8 fails this way, and at width 32 yields `10_000_000`
with nothing left over. -/
theorem spec_c4_toomanybytes_shift_amount :
    (∀ w buf, read_unsigned w buf = .error .TooManyBytesForType ↔
      ∃ i, i < buf.length ∧ w ≤ 7 * i ∧ ∀ j, j < i → 128 ≤ buf.getD j 0) ∧
    (∀ w buf e, read_signed w buf = .error e ↔ read_unsigned w buf = .error e) ∧
    read_unsigned 8 [128, 173, 226, 4] = .error .TooManyBytesForType ∧
    read_unsigned 32 [128, 173, 226, 4] = .ok (10000000, []) :=
  ⟨read_unsigned_tmb_iff, read_signed_error_iff, rfl, rfl⟩

/-- **C4**, counterexample to the claim as stated: merging the group `2` at
bit offset 7 into an 8-bit accumulator discards its set bit (the true
magnitude of the stream is `256`, as width 16 shows), yet `read_u8` returns
`Ok((0, []))` instead of `Err(TooManyBytesForType)`. -/
theorem spec_c4_counterexample :
    read_unsigned 8 [128, 2] = .ok (0, []) ∧
    read_unsigned 16 [128, 2] = .ok (256, []) :=
  ⟨rfl, rfl⟩

/-- **C5** (corrected): `EmptyBuffer` is reported exactly on an input with
zero remaining bytes, for both readers; and a nonempty input whose every
byte carries the continuation bit is reported as `NotEnoughBytes` *provided*
no byte is consumed at bit offset `≥ w` (i.e. `7·(len−1) < w`) — otherwise
the width check fires first and the result is `TooManyBytesForType` instead
(see `spec_c5_counterexample`). -/
theorem spec_c5_empty_and_truncation :
    (∀ w buf, read_unsigned w buf = .error .EmptyBuffer ↔ buf = []) ∧
    (∀ w buf, read_signed w buf = .error .EmptyBuffer ↔ buf = []) ∧
    (∀ w buf, buf ≠ [] → (∀ b ∈ buf, 128 ≤ b) → 7 * (buf.length - 1) < w →
      read_unsigned w buf = .error .NotEnoughBytes ∧
      read_signed w buf = .error .NotEnoughBytes) := by
  refine ⟨read_unsigned_eb_iff,
    fun w buf => (read_signed_error_iff w buf _).trans (read_unsigned_eb_iff w buf),
    fun w buf hne hall hlen => ?_⟩
  have hu : read_unsigned w buf = .error .NotEnoughBytes := by
    unfold read_unsigned
    rw [if_neg (by simpa using hne)]
    exact readLoop_neb w buf 0 0 hne hall (by omega)
  exact ⟨hu, (read_signed_error_iff w buf _).mpr hu⟩

/-- **C5**, counterexample to the claim as stated: `[0x80, 0x80, 0x80]` is
nonempty and is exhausted with the continuation bit of every consumed byte
set, but reading it at width 8 yields `TooManyBytesForType` (the third byte
is consumed at bit offset 14 ≥ 8), not `NotEnoughBytes`. -/
theorem spec_c5_counterexample :
    read_unsigned 8 [128, 128, 128] = .error .TooManyBytesForType ∧
    VartyIntError.TooManyBytesForType ≠ VartyIntError.NotEnoughBytes :=
  ⟨rfl, by decide⟩

/-! ### The unsigned writer -/

/-- `v &&& 0b0111_1111` is the low 7-bit group. -/
lemma and127_eq_mod (v : Nat) : v &&& 127 = v % 128 := by
  have h := Nat.and_pow_two_sub_one_eq_mod v 7
  norm_num at h
  exact h

lemma write_unsigned_groups_zero : write_unsigned_groups 0 = [] := by
  rw [write_unsigned_groups]
  simp

lemma write_unsigned_groups_cons (v : Nat) (h : v ≠ 0) :
    write_unsigned_groups v =
      (if v >>> 7 ≠ 0 then (v &&& 127) ||| 128 else v &&& 127) ::
        write_unsigned_groups (v >>> 7) := by
  rw [write_unsigned_groups]
  simp [h]

/-- A nonzero value below 128 is a single byte, itself. -/
lemma write_unsigned_groups_single (v : Nat) (h1 : v ≠ 0) (h2 : v < 128) :
    write_unsigned_groups v = [v] := by
  have h7 : v >>> 7 = 0 := (shiftRight7_eq_zero_iff v).mpr h2
  rw [write_unsigned_groups_cons v h1, h7]
  simp [write_unsigned_groups_zero, and127_eq_mod, Nat.mod_eq_of_lt h2]

/-- The last byte the loop pushes is the top 7-bit group: nonzero, with the
continuation bit clear. -/
lemma write_unsigned_groups_getLast : ∀ v : Nat, v ≠ 0 →
    ∃ l, (write_unsigned_groups v).getLast? = some l ∧ 0 < l ∧ l < 128 := by
  intro v
  induction v using Nat.strong_induction_on with
  | _ v ih =>
    intro h
    by_cases h7 : v >>> 7 = 0
    · have hv : v < 128 := (shiftRight7_eq_zero_iff v).mp h7
      exact ⟨v, by rw [write_unsigned_groups_single v h hv]; rfl,
        Nat.pos_of_ne_zero h, hv⟩
    · obtain ⟨l, hl, h0, h128⟩ := ih (v >>> 7)
        (by
          rw [Nat.shiftRight_eq_div_pow]
          exact Nat.div_lt_self (Nat.pos_of_ne_zero h) (by norm_num)) h7
      refine ⟨l, ?_, h0, h128⟩
      rw [write_unsigned_groups_cons v h, List.getLast?_cons, hl]
      rfl

/-- The last byte `write_unsigned` leaves in the buffer, for nonzero input:
a nonzero group with continuation bit clear. -/
lemma write_unsigned_getLast (v : Nat) (buf : List Nat) (h : v ≠ 0) :
    ∃ l, (write_unsigned v buf).getLast? = some l ∧ 0 < l ∧ l < 128 := by
  obtain ⟨l, hl, h0, h128⟩ := write_unsigned_groups_getLast v h
  refine ⟨l, ?_, h0, h128⟩
  unfold write_unsigned
  rw [if_neg h, List.getLast?_append, hl]
  rfl

/-- **C7**: every unsigned value `0..=127` encodes to exactly one byte (the
value itself), and `128` encodes to exactly the two bytes `[0x80, 0x01]`.
The unsigned writer's body is width-independent, so this covers every
unsigned width. -/
theorem spec_c7_threshold :
    (∀ v buf, v ≤ 127 → write_unsigned v buf = buf ++ [v]) ∧
    (∀ buf, write_unsigned 128 buf = buf ++ [128, 1]) := by
  constructor
  · intro v buf hv
    unfold write_unsigned
    by_cases h : v = 0
    · subst h; simp
    · rw [if_neg h, write_unsigned_groups_single v h (by omega)]
  · intro buf
    unfold write_unsigned
    rw [if_neg (by norm_num), write_unsigned_groups_cons 128 (by norm_num)]
    have h7 : (128 : Nat) >>> 7 = 1 := rfl
    rw [h7]
    have hb : (128 : Nat) &&& 127 ||| 128 = 128 := by decide
    simp [write_unsigned_groups_single 1 one_ne_zero, hb]

/-! ### Int facts for the signed writer -/

/-- The arithmetic shift of a negative value is still negative (the sign bit
is replicated), so `val >>= 7` never reaches `0` from below. -/
lemma int_shiftRight7_neg (v : Int) (h : v < 0) : v >>> (7 : Nat) < 0 := by
  cases v with
  | ofNat n => exact absurd h (Int.ofNat_nonneg n).not_lt
  | negSucc n => exact Int.negSucc_lt_zero _

lemma int_xor_zero (s : Int) : Int.xor s 0 = s := by
  cases s with
  | ofNat n =>
    show (((n ^^^ 0 : Nat)) : Int) = Int.ofNat n
    rw [Nat.xor_zero]
    rfl
  | negSucc n =>
    show Int.negSucc (n ^^^ 0) = Int.negSucc n
    rw [Nat.xor_zero]

lemma int_xor_negOne (s : Int) : Int.xor s (-1) = -s - 1 := by
  have h1 : (-1 : Int) = Int.negSucc 0 := rfl
  rw [h1]
  cases s with
  | ofNat n =>
    show Int.negSucc (n ^^^ 0) = -(Int.ofNat n) - 1
    rw [Nat.xor_zero, Int.negSucc_eq]
    simp [Int.ofNat_eq_natCast]
    ring
  | negSucc n =>
    show (((n ^^^ 0 : Nat)) : Int) = -(Int.negSucc n) - 1
    rw [Nat.xor_zero, Int.negSucc_eq]
    ring

/-- On a negative working value the emission loop of `write_signed!` never
exits: no amount of fuel completes it, i.e. the `while` loop runs forever. -/
lemma writeSignedLoop_none_of_neg : ∀ (fuel : Nat) (val : Int) (buf : List Nat),
    val < 0 → writeSignedLoop fuel val buf = none := by
  intro fuel
  induction fuel with
  | zero => intro val buf _; rfl
  | succ fuel ih =>
    intro val buf h
    have hne : ¬ val = 0 := by omega
    simp only [writeSignedLoop, if_neg hne]
    exact ih _ _ (int_shiftRight7_neg val h)

/-- `write_i8 64` never returns (shared by the records of several claims):
`zigzag 8 64 = -128 < 0`, so the loop diverges. -/
lemma write_signed8_64_none (fuel : Nat) (buf : List Nat) :
    write_signed 8 fuel 64 buf = none := by
  unfold write_signed
  rw [if_neg (by norm_num)]
  exact writeSignedLoop_none_of_neg fuel _ buf (by decide)

/-- **C1** (code bug): the round-trip law fails for the signed widths.  The
zig-zag of `write_signed!` is computed in the width being encoded (not one
bit wider), so already `write_i8(64)` — value in range, claim applies —
wraps `64 << 1` to `-128`, the working value turns negative, and the
emission loop never exits: no fuel bound returns, so no encoding of `64`
exists for `read_i8` to decode.  (For the unsigned widths and for signed
values whose zig-zag stays nonnegative the codec does round-trip.) -/
theorem spec_c1_roundtrip_fails_for_write_i8_64 :
    zigzag 8 64 = -128 ∧
    ∀ fuel buf, write_signed 8 fuel 64 buf = none :=
  ⟨by decide, fun fuel buf => write_signed8_64_none fuel buf⟩

/-- **C2** (code bug): the minimum value of a signed width does not
round-trip — the zig-zag left shift is *not* carried out one bit wider:
`(-128) << 1` wraps to `0` in `i8`, the sign-extension xor makes the working
value `-1`, and the emission loop never exits for any fuel.  The i32 case is
exercised by the repository's own test `varint_idempotent1`
(src/src/tests.rs line 149, `assert_same!(read_i32, write_i32, 1 << 31)`,
i.e. the minimum `i32`), which therefore cannot pass either. -/
theorem spec_c2_min_value_write_diverges :
    zigzag 8 (-128) = -1 ∧
    (∀ fuel buf, write_signed 8 fuel (-128) buf = none) ∧
    zigzag 32 (-2147483648) = -1 ∧
    (∀ fuel buf, write_signed 32 fuel (-2147483648) buf = none) := by
  refine ⟨by decide, fun fuel buf => ?_, by decide, fun fuel buf => ?_⟩ <;>
    · unfold write_signed
      rw [if_neg (by norm_num)]
      exact writeSignedLoop_none_of_neg fuel _ buf (by decide)

/-- **C3** (code bug): not every operation terminates.  `write_i8(-65)`
(representable input, freshly supplied buffer) turns the working value into
`zigzag 8 (-65) = -127 < 0` and the `while val != 0` loop never exits: the
result is `none` for every iteration bound. -/
theorem spec_c3_writer_does_not_terminate :
    zigzag 8 (-65) = -127 ∧
    ∀ fuel buf, write_signed 8 fuel (-65) buf = none := by
  refine ⟨by decide, fun fuel buf => ?_⟩
  unfold write_signed
  rw [if_neg (by norm_num)]
  exact writeSignedLoop_none_of_neg fuel _ buf (by decide)

/-- **C9** (code bug, spec-modelled sequence layer): delta round-trip fails.
Already on the one-element `i8` list `[64]` the delta writer calls the
single-value encoder on `64 - 0 = 64`, which never returns
(`write_signed8_64_none`), so `read_many_delta (write_many_delta [64])`
cannot yield `[64]` — the encoding side never produces bytes at all. -/
theorem spec_c9_delta_roundtrip_fails :
    ∀ fuel, write_many_delta 8 fuel 0 [64] [] = none := by
  intro fuel
  have hw : wrapS 8 (64 - 0) = 64 := by decide
  simp only [write_many_delta, hw, write_signed8_64_none]

/-- `wrapS` preserves the residue modulo `2 ^ w`. -/
lemma wrapS_emod (w : Nat) (x : Int) : wrapS w x % 2 ^ w = x % 2 ^ w := by
  unfold wrapS
  calc ((x + 2 ^ (w - 1)) % 2 ^ w - 2 ^ (w - 1)) % 2 ^ w
      = ((x + 2 ^ (w - 1)) % 2 ^ w % 2 ^ w - 2 ^ (w - 1) % 2 ^ w) % 2 ^ w :=
        Int.sub_emod _ _ _
    _ = ((x + 2 ^ (w - 1)) % 2 ^ w - 2 ^ (w - 1) % 2 ^ w) % 2 ^ w := by
        rw [Int.emod_emod_of_dvd _ dvd_rfl]
    _ = ((x + 2 ^ (w - 1)) - 2 ^ (w - 1)) % 2 ^ w := (Int.sub_emod _ _ _).symm
    _ = x % 2 ^ w := by ring_nf

/-- `wrapS` lands in `w`-bit two's-complement range. -/
lemma wrapS_range (w : Nat) (hw : 0 < w) (x : Int) :
    -(2 ^ (w - 1)) ≤ wrapS w x ∧ wrapS w x < 2 ^ (w - 1) := by
  unfold wrapS
  have h2 : (2 : Int) ^ w = 2 ^ (w - 1) * 2 := by
    rw [← pow_succ]
    congr 1
    omega
  have hpos : (0 : Int) < 2 ^ w := by positivity
  have hlo := Int.emod_nonneg (x + 2 ^ (w - 1)) (ne_of_gt hpos)
  have hhi := Int.emod_lt_of_pos (x + 2 ^ (w - 1)) hpos
  omega

/-- For an in-range value, the arithmetic shift by `w - 1` extracts the sign:
`0` for nonnegative, `-1` for negative. -/
lemma int_shiftRight_sign (w : Nat) (v : Int)
    (h1 : -(2 ^ (w - 1)) ≤ v) (h2 : v < 2 ^ (w - 1)) :
    v >>> (w - 1 : Nat) = if 0 ≤ v then 0 else -1 := by
  cases v with
  | ofNat n =>
    have hge : (0 : Int) ≤ Int.ofNat n := Int.ofNat_nonneg n
    rw [if_pos hge]
    show Int.ofNat (n >>> (w - 1)) = 0
    have hn : n < 2 ^ (w - 1) := by
      rw [Int.ofNat_eq_natCast] at h2
      exact_mod_cast h2
    rw [Nat.shiftRight_eq_div_pow, Nat.div_eq_of_lt hn]
    rfl
  | negSucc n =>
    rw [if_neg (Int.negSucc_lt_zero n).not_le]
    show Int.negSucc (n >>> (w - 1)) = -1
    rw [Int.negSucc_eq] at h1
    have hn : n < 2 ^ (w - 1) := by
      have : (n : Int) < 2 ^ (w - 1) := by omega
      exact_mod_cast this
    rw [Nat.shiftRight_eq_div_pow, Nat.div_eq_of_lt hn]
    rfl

/-- Closed form of the zig-zag transform on in-range values: the xor operand
`val >> (w-1)` is `0` or `-1`, and xor with `-1` is complement. -/
lemma zigzag_eq (w : Nat) (v : Int)
    (h1 : -(2 ^ (w - 1)) ≤ v) (h2 : v < 2 ^ (w - 1)) :
    zigzag w v = if 0 ≤ v then wrapS w (2 * v) else -(wrapS w (2 * v)) - 1 := by
  unfold zigzag
  have hsl : v <<< (1 : Int) = 2 * v := by
    have h := Int.shiftLeft_eq_mul_pow v 1
    push_cast at h
    rw [h]
    ring
  rw [hsl, int_shiftRight_sign w v h1 h2]
  by_cases hv : 0 ≤ v
  · rw [if_pos hv, if_pos hv, int_xor_zero]
  · rw [if_neg hv, if_neg hv, int_xor_negOne]

/-- The zig-zag of an in-range nonzero value is nonzero (when it is negative
the writer diverges; when it is nonnegative it is a genuine byte source). -/
lemma zigzag_ne_zero (w : Nat) (hw : 0 < w) (v : Int) (hv : v ≠ 0)
    (h1 : -(2 ^ (w - 1)) ≤ v) (h2 : v < 2 ^ (w - 1)) :
    zigzag w v ≠ 0 := by
  have h2w : (2 : Int) ^ w = 2 * 2 ^ (w - 1) := by
    rw [← pow_succ']
    congr 1
    omega
  have hmul : (2 * v) % (2 ^ w) = 2 * (v % 2 ^ (w - 1)) := by
    rw [h2w]
    exact Int.mul_emod_mul_of_pos _ _ (by norm_num)
  have hs := wrapS_emod w (2 * v)
  rw [zigzag_eq w v h1 h2]
  by_cases hsign : 0 ≤ v
  · rw [if_pos hsign]
    intro h0
    rw [h0] at hs
    have hv' : v % 2 ^ (w - 1) = v := Int.emod_eq_of_lt hsign h2
    rw [hmul, hv', Int.zero_emod] at hs
    omega
  · rw [if_neg hsign]
    intro h0
    have hsm1 : wrapS w (2 * v) = -1 := by omega
    rw [hsm1] at hs
    have hm1 : (-1 : Int) % 2 ^ w = 2 ^ w - 1 := by
      have hw2 : (1 : Int) < 2 ^ w := by
        calc (1 : Int) < 2 ^ 1 := by norm_num
        _ ≤ 2 ^ w := pow_le_pow_right₀ (by norm_num) hw
      have : (-1 : Int) = (2 ^ w - 1) + 2 ^ w * (-1) := by ring
      rw [this, Int.add_mul_emod_self_left]
      exact Int.emod_eq_of_lt (by omega) (by omega)
    rw [hm1, hmul] at hs
    have hpos : (0 : Int) < 2 ^ (w - 1) := by positivity
    have hb := Int.emod_nonneg v (ne_of_gt hpos)
    have hb2 := Int.emod_lt_of_pos v hpos
    omega

/-- A successful run of the emission loop appends a nonempty byte string
whose last pushed byte is a nonzero top group with the continuation bit
clear. -/
lemma writeSignedLoop_some_suffix : ∀ (fuel : Nat) (val : Int) (buf bs : List Nat),
    val ≠ 0 → writeSignedLoop fuel val buf = some bs →
    ∃ tail l, bs = buf ++ tail ∧ tail.getLast? = some l ∧ 0 < l ∧ l < 128 := by
  intro fuel
  induction fuel with
  | zero =>
    intro val buf bs _ h
    exact absurd h (by simp [writeSignedLoop])
  | succ fuel ih =>
    intro val buf bs hne h
    simp only [writeSignedLoop, if_neg hne] at h
    by_cases h7 : val >>> (7 : Nat) = 0
    · have hpos : 0 ≤ val := by
        by_contra hneg
        have := int_shiftRight7_neg val (by omega)
        omega
      obtain ⟨n, rfl⟩ := Int.eq_ofNat_of_zero_le hpos
      have hn0 : n ≠ 0 := by
        intro h0
        subst h0
        exact hne rfl
      have hn7 : n >>> 7 = 0 := by
        have hsh : ((n : Int)) >>> (7 : Nat) = Int.ofNat (n >>> 7) := rfl
        rw [hsh, Int.ofNat_eq_natCast] at h7
        exact_mod_cast h7
      have hn128 : n < 128 := (shiftRight7_eq_zero_iff n).mp hn7
      have hland : (Int.land (n : Int) 127).toNat = n := by
        have h1 : Int.land (n : Int) 127 = ((n &&& 127 : Nat) : Int) := rfl
        rw [h1, Int.toNat_natCast, and127_eq_mod, Nat.mod_eq_of_lt hn128]
      rw [h7] at h
      simp only [ne_eq, not_true_eq_false, if_false, hland] at h
      cases fuel with
      | zero => exact absurd h (by simp [writeSignedLoop])
      | succ fuel2 =>
        simp only [writeSignedLoop] at h
        simp only [if_pos] at h
        have hbs : buf ++ [n] = bs := by
          simpa using h
        exact ⟨[n], n, hbs.symm, rfl, Nat.pos_of_ne_zero hn0, hn128⟩
    · obtain ⟨tail, l, heq, hl, h0, h128⟩ := ih (val >>> (7 : Nat)) _ bs h7 h
      refine ⟨(if val >>> (7 : Nat) ≠ 0 then (Int.land val 127).toNat ||| 128
        else (Int.land val 127).toNat) :: tail, l, ?_, ?_, h0, h128⟩
      · rw [heq]
        simp
      · rw [List.getLast?_cons, hl]
        rfl

/-- **C6** (confirmed): encoding zero appends exactly the single byte `0x00`
for every width, signed or unsigned; and for every nonzero value, whenever
the writer returns, the appended byte string's final byte is a nonzero 7-bit
group with the continuation bit clear — no leading zero groups, so the
produced encoding is minimal-length.  (For signed values whose zig-zag turns
negative the writer never returns — see `spec_c3_writer_does_not_terminate`
— so there is no emitted sequence to speak of.) -/
theorem spec_c6_canonical_zero_and_minimal :
    (∀ buf, write_unsigned 0 buf = buf ++ [0]) ∧
    (∀ w fuel buf, write_signed w fuel 0 buf = some (buf ++ [0])) ∧
    (∀ v buf, v ≠ 0 → ∃ tail l, write_unsigned v buf = buf ++ tail ∧
      tail.getLast? = some l ∧ 0 < l ∧ l < 128) ∧
    (∀ w fuel v buf bs, 0 < w → v ≠ 0 → -(2 ^ (w - 1)) ≤ v → v < 2 ^ (w - 1) →
      write_signed w fuel v buf = some bs →
      ∃ tail l, bs = buf ++ tail ∧ tail.getLast? = some l ∧ 0 < l ∧ l < 128) := by
  refine ⟨fun buf => by simp [write_unsigned],
    fun w fuel buf => by simp [write_signed],
    fun v buf hv => ?_,
    fun w fuel v buf bs hw hv h1 h2 hsome => ?_⟩
  · obtain ⟨l, hl, h0, h128⟩ := write_unsigned_groups_getLast v hv
    exact ⟨write_unsigned_groups v, l, by simp [write_unsigned, hv], hl, h0, h128⟩
  · unfold write_signed at hsome
    rw [if_neg hv] at hsome
    exact writeSignedLoop_some_suffix fuel (zigzag w v) buf bs
      (zigzag_ne_zero w hw v hv h1 h2) hsome

/-- **C10** (confirmed): the readers do not enforce minimality.  The
redundant two-byte sequence `[0x80, 0x00]` (a zero group with continuation,
then a zero final group) decodes at width 8 to `Ok((0, []))` exactly like
the canonical `[0x00]`, although the two inputs differ and the writer never
produces `[0x80, 0x00]` — any nonzero value's encoding ends in a nonzero
byte, and zero's encoding is the single byte `[0x00]`. -/
theorem spec_c10_reader_accepts_noncanonical :
    read_unsigned 8 [128, 0] = .ok (0, []) ∧
    read_unsigned 8 [0] = .ok (0, []) ∧
    ([128, 0] : List Nat) ≠ [0] ∧
    ∀ v buf, write_unsigned v buf ≠ buf ++ [128, 0] := by
  refine ⟨rfl, rfl, by decide, fun v buf h => ?_⟩
  unfold write_unsigned at h
  by_cases hv : v = 0
  · rw [if_pos hv] at h
    have h2 := List.append_cancel_left h
    exact absurd h2 (by decide)
  · rw [if_neg hv] at h
    have h2 := List.append_cancel_left h
    obtain ⟨l, hl, h0, _⟩ := write_unsigned_groups_getLast v hv
    rw [h2] at hl
    simp at hl
    omega

/-- **C8** (confirmed): the concrete wire-format scenarios.
`write_i32 1000 = [0xD0, 0x0F]` (fuel 8 is ample: the loop needs two
iterations); `write_u32 300 = [0xAC, 0x02]`; `write_i32 (-64) = [0x7F]`;
and `[0x18, 0x01, 0xBF, 0xBB, 0x01]` read by three successive `read_i32`
calls yields `12`, `-1`, `-12000`, each passing the unconsumed suffix on and
ending with the empty view. -/
theorem spec_c8_concrete_scenarios :
    write_signed 32 8 1000 [] = some [0xD0, 0x0F] ∧
    write_unsigned 300 [] = [0xAC, 0x02] ∧
    write_signed 32 8 (-64) [] = some [0x7F] ∧
    read_signed 32 [0x18, 0x01, 0xBF, 0xBB, 0x01] = .ok (12, [0x01, 0xBF, 0xBB, 0x01]) ∧
    read_signed 32 [0x01, 0xBF, 0xBB, 0x01] = .ok (-1, [0xBF, 0xBB, 0x01]) ∧
    read_signed 32 [0xBF, 0xBB, 0x01] = .ok (-12000, []) := by
  refine ⟨by decide, ?_, by decide, rfl, rfl, rfl⟩
  simp [write_unsigned, write_unsigned_groups]
  decide
